import Mathlib

/-!
# Verification of scylladb/vector-store core components

Shallow embedding of the vector-store service's core data structures and
algorithms, translated from the Rust sources:

* `crates/vector-store/src/invariant_key.rs` — the compact primary-key codec
  (`InvariantKey`): tagged byte encoding of CQL scalar values, decoding via
  `get`/`iter`, `hash_prefix`, and the 255-column bound.
* `crates/vector-store/src/node_state.rs` — the node status state machine.
* `crates/vector-store/src/monitor_indexes.rs` — the schema-version cache and
  the per-tick reconciliation loop.
* `src/lib.rs` / `src/httproutes.rs` — the `Limit` type of the ANN HTTP route.

Machine integers are modelled as `Nat`/`Int` with explicit range side
conditions; `f32`/`f64` values are represented by their IEEE-754 bit patterns
(the codec only ever moves their little-endian bytes, never interprets them).
Rust `String` values are represented by their UTF-8 byte sequences. Code that
panics is modelled as returning `Option`.
-/

namespace VectorStore

/-! ## Little-endian byte encoding helpers

Models `<iN>::to_le_bytes` / `<iN>::from_le_bytes` (two's complement) and
`u32::to_le_bytes` / `u32::from_le_bytes` on `Nat`/`Int`. -/

/-- Little-endian bytes (length `width`) of `n % 256 ^ width`. -/
def natLE (width n : Nat) : List Nat :=
  match width with
  | 0 => []
  | w + 1 => n % 256 :: natLE w (n / 256)

/-- Read a little-endian byte list back as a `Nat`. -/
def leNat : List Nat → Nat
  | [] => 0
  | b :: rest => b + 256 * leNat rest

/-- Two's complement `to_le_bytes` of an `iN` value (`width` bytes). -/
def intLE (width : Nat) (v : Int) : List Nat :=
  natLE width (v % ((2 : Int) ^ (8 * width))).toNat

/-- Interpret a `Nat` below `2 ^ (8 * width)` as a signed two's complement value. -/
def toSigned (width n : Nat) : Int :=
  if n < 2 ^ (8 * width - 1) then (n : Int) else (n : Int) - (2 : Int) ^ (8 * width)

/-- Two's complement `from_le_bytes` of `width` bytes. -/
def leInt (width : Nat) (l : List Nat) : Int :=
  toSigned width (leNat l)

theorem natLE_length (width n : Nat) : (natLE width n).length = width := by
  induction width generalizing n with
  | zero => rfl
  | succ w ih => simp [natLE, ih]

theorem leNat_natLE (width n : Nat) : leNat (natLE width n) = n % 256 ^ width := by
  induction width generalizing n with
  | zero => simp [natLE, leNat, Nat.mod_one]
  | succ w ih =>
    simp only [natLE, leNat, ih]
    rw [pow_succ']
    exact Nat.mod_mul.symm

theorem leNat_natLE_of_lt {width n : Nat} (h : n < 256 ^ width) :
    leNat (natLE width n) = n := by
  rw [leNat_natLE, Nat.mod_eq_of_lt h]

theorem pow256_eq_pow2 (w : Nat) : (256 : Nat) ^ w = 2 ^ (8 * w) := by
  have : (256 : Nat) = 2 ^ 8 := by norm_num
  rw [this, ← pow_mul]

/-- Round trip for signed values: `from_le_bytes (to_le_bytes v) = v` when
`v` is in the `iN` range. -/
theorem leInt_intLE (width : Nat) {v : Int} (hw : 0 < width)
    (hlo : -(2 : Int) ^ (8 * width - 1) ≤ v) (hhi : v < (2 : Int) ^ (8 * width - 1)) :
    leInt width (intLE width v) = v := by
  unfold leInt intLE
  have hpos : (0 : Int) < (2 : Int) ^ (8 * width) := by positivity
  have hmod_nonneg : 0 ≤ v % ((2 : Int) ^ (8 * width)) := Int.emod_nonneg v (by positivity)
  have hmod_lt : v % ((2 : Int) ^ (8 * width)) < (2 : Int) ^ (8 * width) :=
    Int.emod_lt_of_pos v hpos
  set m : Nat := (v % ((2 : Int) ^ (8 * width))).toNat with hm
  have hmv : (m : Int) = v % ((2 : Int) ^ (8 * width)) := Int.toNat_of_nonneg hmod_nonneg
  have hmlt : m < 2 ^ (8 * width) := by
    have : (m : Int) < (2 : Int) ^ (8 * width) := by rw [hmv]; exact hmod_lt
    exact_mod_cast this
  have hround : leNat (natLE width m) = m := by
    apply leNat_natLE_of_lt
    rw [pow256_eq_pow2]
    exact hmlt
  rw [hround]
  -- Relate m to v: m = v or m = v + 2^(8w)
  have hsplit : 8 * width = (8 * width - 1) + 1 := by omega
  have hhalf : (2 : Int) ^ (8 * width) = 2 * (2 : Int) ^ (8 * width - 1) := by
    conv_lhs => rw [hsplit]
    rw [pow_succ, mul_comm]
  have habs : v < (2 : Int) ^ (8 * width) := by
    calc v < (2 : Int) ^ (8 * width - 1) := hhi
      _ ≤ (2 : Int) ^ (8 * width) := by
          apply pow_le_pow_right₀ (by norm_num)
          omega
  have hcase : (m : Int) = v ∨ (m : Int) = v + (2 : Int) ^ (8 * width) := by
    rcases le_or_lt 0 v with hv | hv
    · left
      rw [hmv, Int.emod_eq_of_lt hv habs]
    · right
      rw [hmv]
      have h1 : v % ((2 : Int) ^ (8 * width)) = (v + (2 : Int) ^ (8 * width)) % ((2 : Int) ^ (8 * width)) := by
        have := Int.add_mul_emod_self_left (a := v) (b := (2 : Int) ^ (8 * width)) (c := 1)
        rw [mul_one] at this
        exact this.symm
      rw [h1, Int.emod_eq_of_lt (by nlinarith) (by nlinarith)]
  unfold toSigned
  rcases hcase with hc | hc
  · rw [if_pos]
    · exact hc
    · have : (m : Int) < (2 : Int) ^ (8 * width - 1) := by rw [hc]; exact hhi
      have h2 : ((2 ^ (8 * width - 1) : Nat) : Int) = (2 : Int) ^ (8 * width - 1) := by
        push_cast; ring
      exact_mod_cast (h2 ▸ this)
  · rw [if_neg]
    · rw [hc]; ring
    · push_neg
      have : (2 : Int) ^ (8 * width - 1) ≤ (m : Int) := by
        rw [hc, hhalf]
        nlinarith
      have h2 : ((2 ^ (8 * width - 1) : Nat) : Int) = (2 : Int) ^ (8 * width - 1) := by
        push_cast; ring
      exact_mod_cast (h2 ▸ this)

/-! ## CQL values

Model of the supported variants of the scylla driver's `CqlValue` enum, i.e.
exactly those accepted by `encode_value` in `invariant_key.rs`. Any other
variant panics (`unsupported`) and is therefore outside this type.

* integer variants carry an `Int` with a range side condition (`WF`);
* `float`/`double` carry the 32/64-bit IEEE-754 bit pattern (the codec only
  copies their little-endian bytes);
* `text`/`ascii` carry the UTF-8 bytes of the Rust `String`;
* `uuid`/`timeuuid`/`inetV6` carry their 16 raw bytes, `inetV4` its 4 octets;
* `date` carries the `u32` of `CqlDate`; `time`/`timestamp`/`counter` carry
  the `i64` of their wrappers. -/

inductive CqlValue where
  | empty
  | boolean (v : Bool)
  | tinyInt (v : Int)
  | smallInt (v : Int)
  | int (v : Int)
  | bigInt (v : Int)
  | float (bits : Nat)
  | double (bits : Nat)
  | text (s : List Nat)
  | ascii (s : List Nat)
  | blob (b : List Nat)
  | uuid (b : List Nat)
  | timeuuid (b : List Nat)
  | date (v : Nat)
  | time (v : Int)
  | timestamp (v : Int)
  | inetV4 (b : List Nat)
  | inetV6 (b : List Nat)
  | counter (v : Int)
  deriving DecidableEq

/-- All entries of a byte list are bytes. -/
def BytesWF (l : List Nat) : Prop := ∀ b ∈ l, b < 256

instance (l : List Nat) : Decidable (BytesWF l) := List.decidableBAll _ l

/-- Range/side conditions making a model value denote an actual Rust value
(`i8`/`i16`/`i32`/`i64`/`u32` ranges, 32/64 bit patterns, byte payloads,
the `u32` length limit of var-length payloads, fixed address/uuid widths). -/
def CqlValue.WF : CqlValue → Prop
  | .empty => True
  | .boolean _ => True
  | .tinyInt v => -128 ≤ v ∧ v < 128
  | .smallInt v => -32768 ≤ v ∧ v < 32768
  | .int v => -2147483648 ≤ v ∧ v < 2147483648
  | .bigInt v => -9223372036854775808 ≤ v ∧ v < 9223372036854775808
  | .float bits => bits < 4294967296
  | .double bits => bits < 18446744073709551616
  | .text s => BytesWF s ∧ s.length < 4294967296
  | .ascii s => BytesWF s ∧ s.length < 4294967296
  | .blob b => BytesWF b ∧ b.length < 4294967296
  | .uuid b => BytesWF b ∧ b.length = 16
  | .timeuuid b => BytesWF b ∧ b.length = 16
  | .date v => v < 4294967296
  | .time v => -9223372036854775808 ≤ v ∧ v < 9223372036854775808
  | .timestamp v => -9223372036854775808 ≤ v ∧ v < 9223372036854775808
  | .inetV4 b => BytesWF b ∧ b.length = 4
  | .inetV6 b => BytesWF b ∧ b.length = 16
  | .counter v => -9223372036854775808 ≤ v ∧ v < 9223372036854775808

instance : DecidablePred CqlValue.WF := by
  intro v
  cases v <;> simp only [CqlValue.WF] <;> infer_instance

/-! ## Encoding (`invariant_key.rs`)

Tag constants are those of the source: `TAG_EMPTY = 0`, `TAG_BOOLEAN = 1`,
`TAG_TINY_INT = 2`, `TAG_SMALL_INT = 3`, `TAG_INT = 4`, `TAG_BIG_INT = 5`,
`TAG_FLOAT = 6`, `TAG_DOUBLE = 7`, `TAG_TEXT = 8`, `TAG_ASCII = 9`,
`TAG_UUID = 10`, `TAG_TIMEUUID = 11`, `TAG_DATE = 12`, `TAG_TIME = 13`,
`TAG_TIMESTAMP = 14`, `TAG_INET_V4 = 15`, `TAG_INET_V6 = 16`,
`TAG_COUNTER = 17`, `TAG_BLOB = 18`. -/

/-- Model of `encode_value`: one value as `[tag] ++ payload`.

The `expect` panic on a text/ascii/blob payload of `2^32` bytes or more is
modelled by the truncating `natLE 4`; the `WF` side condition of each theorem
keeps inputs inside the panic-free domain. -/
def encodeValue : CqlValue → List Nat
  | .empty => [0]
  | .boolean v => [1, if v then 1 else 0]
  | .tinyInt v => 2 :: intLE 1 v
  | .smallInt v => 3 :: intLE 2 v
  | .int v => 4 :: intLE 4 v
  | .bigInt v => 5 :: intLE 8 v
  | .float bits => 6 :: natLE 4 bits
  | .double bits => 7 :: natLE 8 bits
  | .text s => 8 :: (natLE 4 s.length ++ s)
  | .ascii s => 9 :: (natLE 4 s.length ++ s)
  | .blob b => 18 :: (natLE 4 b.length ++ b)
  | .uuid b => 10 :: b
  | .timeuuid b => 11 :: b
  | .date v => 12 :: natLE 4 v
  | .time v => 13 :: intLE 8 v
  | .timestamp v => 14 :: intLE 8 v
  | .inetV4 b => 15 :: b
  | .inetV6 b => 16 :: b
  | .counter v => 17 :: intLE 8 v

/-- Model of `encoded_size`: the number of bytes `encode_value` appends. -/
def encodedSize : CqlValue → Nat
  | .empty => 1
  | .boolean _ => 1 + 1
  | .tinyInt _ => 1 + 1
  | .smallInt _ => 1 + 2
  | .int _ => 1 + 4
  | .bigInt _ => 1 + 8
  | .float _ => 1 + 4
  | .double _ => 1 + 8
  | .text s => 1 + 4 + s.length
  | .ascii s => 1 + 4 + s.length
  | .blob b => 1 + 4 + b.length
  | .uuid _ => 1 + 16
  | .timeuuid _ => 1 + 16
  | .date _ => 1 + 4
  | .time _ => 1 + 8
  | .timestamp _ => 1 + 8
  | .inetV4 _ => 1 + 4
  | .inetV6 _ => 1 + 16
  | .counter _ => 1 + 8

theorem encodeValue_length {v : CqlValue} (h : v.WF) :
    (encodeValue v).length = encodedSize v := by
  cases v <;>
    simp_all [encodeValue, encodedSize, CqlValue.WF, intLE, natLE_length] <;>
    omega

/-- Model of `InvariantKey::encode`: `[count as u8] ++ value₀ ++ … ++ valueₙ₋₁`.

The `values.len() as u8` cast is the truncating Rust cast; `new`/`try_new`
validate `count ≤ 255` before calling this. -/
def encode (values : List CqlValue) : List Nat :=
  values.length % 256 :: (values.map encodeValue).flatten

/-- Model of `InvariantKey::try_new`: errors (`none`) when more than 255 values. -/
def tryNew (values : List CqlValue) : Option (List Nat) :=
  if values.length ≤ 255 then some (encode values) else none

/-- Model of `InvariantKey::new`: panics (modelled `none`) when more than 255 values. -/
def new (values : List CqlValue) : Option (List Nat) :=
  if values.length ≤ 255 then some (encode values) else none

theorem encode_length (values : List CqlValue) (h : ∀ v ∈ values, v.WF) :
    (encode values).length = 1 + ((values.map encodedSize).sum) := by
  simp only [encode, List.length_cons, List.length_flatten]
  have : (values.map encodeValue).map List.length = values.map encodedSize := by
    rw [List.map_map]
    exact List.map_congr_left fun v hv => encodeValue_length (h v hv)
  rw [this]
  omega

/-! ## Decoding (`invariant_key.rs`)

Rust's decoding panics (out-of-bounds slice index, unknown tag) are modelled
as `none`. -/

/-- Read exactly `n` bytes from the front of `l` (`none` models the panic of
an out-of-bounds slice index). -/
def takeExact (n : Nat) (l : List Nat) : Option (List Nat) :=
  if n ≤ l.length then some (l.take n) else none

theorem takeExact_append {l : List Nat} {n : Nat} (h : l.length = n) (r : List Nat) :
    takeExact n (l ++ r) = some l := by
  subst h
  simp [takeExact, List.take_left]

theorem intLE_length (width : Nat) (v : Int) : (intLE width v).length = width :=
  natLE_length _ _

theorem drop_natLE_append (w n : Nat) (l : List Nat) : (natLE w n ++ l).drop w = l := by
  have h := List.drop_left (natLE w n) l
  rwa [natLE_length] at h

theorem leInt_intLE_one {v : Int} (h1 : -128 ≤ v) (h2 : v < 128) :
    leInt 1 (intLE 1 v) = v := by
  have h := leInt_intLE 1 (v := v) (by norm_num)
  norm_num at h
  exact h h1 h2

theorem leInt_intLE_two {v : Int} (h1 : -32768 ≤ v) (h2 : v < 32768) :
    leInt 2 (intLE 2 v) = v := by
  have h := leInt_intLE 2 (v := v) (by norm_num)
  norm_num at h
  exact h h1 h2

theorem leInt_intLE_four {v : Int} (h1 : -2147483648 ≤ v) (h2 : v < 2147483648) :
    leInt 4 (intLE 4 v) = v := by
  have h := leInt_intLE 4 (v := v) (by norm_num)
  norm_num at h
  exact h h1 h2

theorem leInt_intLE_eight {v : Int} (h1 : -9223372036854775808 ≤ v)
    (h2 : v < 9223372036854775808) : leInt 8 (intLE 8 v) = v := by
  have h := leInt_intLE 8 (v := v) (by norm_num)
  norm_num at h
  exact h h1 h2

theorem leNat_natLE_four {n : Nat} (h : n < 4294967296) : leNat (natLE 4 n) = n := by
  apply leNat_natLE_of_lt
  norm_num
  exact h

theorem leNat_natLE_eight {n : Nat} (h : n < 18446744073709551616) :
    leNat (natLE 8 n) = n := by
  apply leNat_natLE_of_lt
  norm_num
  exact h

/-- Model of `decode_value`: decode one value from the front of the buffer, returning
the value and the number of bytes consumed. -/
def decodeValue (data : List Nat) : Option (CqlValue × Nat) :=
  match data with
  | [] => none
  | tag :: rest =>
    if tag = 0 then some (.empty, 1)
    else if tag = 1 then
      (takeExact 1 rest).map fun b => (.boolean (b.headI != 0), 1 + 1)
    else if tag = 2 then
      (takeExact 1 rest).map fun b => (.tinyInt (leInt 1 b), 1 + 1)
    else if tag = 3 then
      (takeExact 2 rest).map fun b => (.smallInt (leInt 2 b), 1 + 2)
    else if tag = 4 then
      (takeExact 4 rest).map fun b => (.int (leInt 4 b), 1 + 4)
    else if tag = 5 then
      (takeExact 8 rest).map fun b => (.bigInt (leInt 8 b), 1 + 8)
    else if tag = 6 then
      (takeExact 4 rest).map fun b => (.float (leNat b), 1 + 4)
    else if tag = 7 then
      (takeExact 8 rest).map fun b => (.double (leNat b), 1 + 8)
    else if tag = 8 then
      (takeExact 4 rest).bind fun lb =>
        (takeExact (leNat lb) (rest.drop 4)).map fun s => (.text s, 1 + 4 + leNat lb)
    else if tag = 9 then
      (takeExact 4 rest).bind fun lb =>
        (takeExact (leNat lb) (rest.drop 4)).map fun s => (.ascii s, 1 + 4 + leNat lb)
    else if tag = 10 then
      (takeExact 16 rest).map fun b => (.uuid b, 1 + 16)
    else if tag = 11 then
      (takeExact 16 rest).map fun b => (.timeuuid b, 1 + 16)
    else if tag = 12 then
      (takeExact 4 rest).map fun b => (.date (leNat b), 1 + 4)
    else if tag = 13 then
      (takeExact 8 rest).map fun b => (.time (leInt 8 b), 1 + 8)
    else if tag = 14 then
      (takeExact 8 rest).map fun b => (.timestamp (leInt 8 b), 1 + 8)
    else if tag = 15 then
      (takeExact 4 rest).map fun b => (.inetV4 b, 1 + 4)
    else if tag = 16 then
      (takeExact 16 rest).map fun b => (.inetV6 b, 1 + 16)
    else if tag = 17 then
      (takeExact 8 rest).map fun b => (.counter (leInt 8 b), 1 + 8)
    else if tag = 18 then
      (takeExact 4 rest).bind fun lb =>
        (takeExact (leNat lb) (rest.drop 4)).map fun b => (.blob b, 1 + 4 + leNat lb)
    else none

/-- Model of `skip_value`: the number of bytes one encoded value occupies, read from
its tag (and, for var-length tags, its length prefix). -/
def skipValue (data : List Nat) : Option Nat :=
  match data with
  | [] => none
  | tag :: rest =>
    if tag = 0 then some 1
    else if tag = 1 ∨ tag = 2 then some (1 + 1)
    else if tag = 3 then some (1 + 2)
    else if tag = 4 ∨ tag = 6 ∨ tag = 12 then some (1 + 4)
    else if tag = 15 then some (1 + 4)
    else if tag = 5 ∨ tag = 7 ∨ tag = 13 ∨ tag = 14 ∨ tag = 17 then some (1 + 8)
    else if tag = 10 ∨ tag = 11 ∨ tag = 16 then some (1 + 16)
    else if tag = 8 ∨ tag = 9 ∨ tag = 18 then
      (takeExact 4 rest).map fun lb => 1 + 4 + leNat lb
    else none

/-- Total byte length of the first `n` encoded values (the offset scan of
`get` and `hash_prefix`). -/
def skipValues (data : List Nat) : Nat → Option Nat
  | 0 => some 0
  | n + 1 =>
    (skipValue data).bind fun c => (skipValues (data.drop c) n).map fun rest => c + rest

/-- Model of `InvariantKey::get`: bounds check against the count byte, scan over
`index` values, decode the next one. -/
def get (buf : List Nat) (index : Nat) : Option CqlValue :=
  match buf with
  | [] => none
  | count :: rest =>
    if count ≤ index then none
    else (skipValues rest index).bind fun off =>
      (decodeValue (rest.drop off)).map fun vc => vc.1

/-- Decode `n` consecutive values (the body of `InvariantKeyIter`). -/
def decodeSeq (data : List Nat) : Nat → Option (List CqlValue)
  | 0 => some []
  | n + 1 =>
    (decodeValue data).bind fun vc =>
      (decodeSeq (data.drop vc.2) n).map fun tail => vc.1 :: tail

/-- Model of `InvariantKey::iter` collected to a list: decode as many values as the
count byte announces. -/
def iterValues (buf : List Nat) : Option (List CqlValue) :=
  match buf with
  | [] => none
  | count :: rest => decodeSeq rest count

/-! ## Round-trip lemmas -/

theorem decodeValue_encodeValue {v : CqlValue} (h : v.WF) (r : List Nat) :
    decodeValue (encodeValue v ++ r) = some (v, (encodeValue v).length) := by
  cases v with
  | empty => simp [encodeValue, decodeValue]
  | boolean b =>
    cases b <;> simp [encodeValue, decodeValue, takeExact]
  | tinyInt x =>
    obtain ⟨h1, h2⟩ := h
    simp [encodeValue, decodeValue, takeExact_append (intLE_length 1 x) r,
      leInt_intLE_one h1 h2, intLE_length]
  | smallInt x =>
    obtain ⟨h1, h2⟩ := h
    simp [encodeValue, decodeValue, takeExact_append (intLE_length 2 x) r,
      leInt_intLE_two h1 h2, intLE_length]
  | int x =>
    obtain ⟨h1, h2⟩ := h
    simp [encodeValue, decodeValue, takeExact_append (intLE_length 4 x) r,
      leInt_intLE_four h1 h2, intLE_length]
  | bigInt x =>
    obtain ⟨h1, h2⟩ := h
    simp [encodeValue, decodeValue, takeExact_append (intLE_length 8 x) r,
      leInt_intLE_eight h1 h2, intLE_length]
  | float bits =>
    simp [encodeValue, decodeValue, takeExact_append (natLE_length 4 bits) r,
      leNat_natLE_four h, natLE_length]
  | double bits =>
    simp [encodeValue, decodeValue, takeExact_append (natLE_length 8 bits) r,
      leNat_natLE_eight h, natLE_length]
  | text s =>
    obtain ⟨_, hlen⟩ := h
    simp only [encodeValue, List.cons_append, List.append_assoc, decodeValue]
    norm_num [takeExact_append (natLE_length 4 s.length) (s ++ r),
      leNat_natLE_four hlen, drop_natLE_append, takeExact_append rfl r, natLE_length]
    omega
  | ascii s =>
    obtain ⟨_, hlen⟩ := h
    simp only [encodeValue, List.cons_append, List.append_assoc, decodeValue]
    norm_num [takeExact_append (natLE_length 4 s.length) (s ++ r),
      leNat_natLE_four hlen, drop_natLE_append, takeExact_append rfl r, natLE_length]
    omega
  | blob b =>
    obtain ⟨_, hlen⟩ := h
    simp only [encodeValue, List.cons_append, List.append_assoc, decodeValue]
    norm_num [takeExact_append (natLE_length 4 b.length) (b ++ r),
      leNat_natLE_four hlen, drop_natLE_append, takeExact_append rfl r, natLE_length]
    omega
  | uuid b =>
    obtain ⟨_, hlen⟩ := h
    simp [encodeValue, decodeValue, takeExact_append hlen r, hlen]
  | timeuuid b =>
    obtain ⟨_, hlen⟩ := h
    simp [encodeValue, decodeValue, takeExact_append hlen r, hlen]
  | date x =>
    simp [encodeValue, decodeValue, takeExact_append (natLE_length 4 x) r,
      leNat_natLE_four h, natLE_length]
  | time x =>
    obtain ⟨h1, h2⟩ := h
    simp [encodeValue, decodeValue, takeExact_append (intLE_length 8 x) r,
      leInt_intLE_eight h1 h2, intLE_length]
  | timestamp x =>
    obtain ⟨h1, h2⟩ := h
    simp [encodeValue, decodeValue, takeExact_append (intLE_length 8 x) r,
      leInt_intLE_eight h1 h2, intLE_length]
  | inetV4 b =>
    obtain ⟨_, hlen⟩ := h
    simp [encodeValue, decodeValue, takeExact_append hlen r, hlen]
  | inetV6 b =>
    obtain ⟨_, hlen⟩ := h
    simp [encodeValue, decodeValue, takeExact_append hlen r, hlen]
  | counter x =>
    obtain ⟨h1, h2⟩ := h
    simp [encodeValue, decodeValue, takeExact_append (intLE_length 8 x) r,
      leInt_intLE_eight h1 h2, intLE_length]

theorem skipValue_encodeValue {v : CqlValue} (h : v.WF) (r : List Nat) :
    skipValue (encodeValue v ++ r) = some (encodeValue v).length := by
  cases v with
  | text s =>
    obtain ⟨_, hlen⟩ := h
    simp only [encodeValue, List.cons_append, List.append_assoc, skipValue]
    norm_num [takeExact_append (natLE_length 4 s.length) (s ++ r),
      leNat_natLE_four hlen, natLE_length]
    omega
  | ascii s =>
    obtain ⟨_, hlen⟩ := h
    simp only [encodeValue, List.cons_append, List.append_assoc, skipValue]
    norm_num [takeExact_append (natLE_length 4 s.length) (s ++ r),
      leNat_natLE_four hlen, natLE_length]
    omega
  | blob b =>
    obtain ⟨_, hlen⟩ := h
    simp only [encodeValue, List.cons_append, List.append_assoc, skipValue]
    norm_num [takeExact_append (natLE_length 4 b.length) (b ++ r),
      leNat_natLE_four hlen, natLE_length]
    omega
  | uuid b =>
    obtain ⟨_, hlen⟩ := h
    simp [encodeValue, skipValue, hlen]
  | timeuuid b =>
    obtain ⟨_, hlen⟩ := h
    simp [encodeValue, skipValue, hlen]
  | inetV4 b =>
    obtain ⟨_, hlen⟩ := h
    simp [encodeValue, skipValue, hlen]
  | inetV6 b =>
    obtain ⟨_, hlen⟩ := h
    simp [encodeValue, skipValue, hlen]
  | boolean b => cases b <;> simp [encodeValue, skipValue]
  | _ =>
    simp [encodeValue, skipValue, intLE_length, natLE_length]

theorem decodeSeq_encode {vs : List CqlValue} (h : ∀ v ∈ vs, v.WF) (r : List Nat) :
    decodeSeq ((vs.map encodeValue).flatten ++ r) vs.length = some vs := by
  induction vs generalizing r with
  | nil => simp [decodeSeq]
  | cons v tl ih =>
    simp only [List.map_cons, List.flatten_cons, List.append_assoc, List.length_cons]
    rw [decodeSeq, decodeValue_encodeValue (h v (List.mem_cons_self v tl))]
    simp only [Option.bind_eq_bind, Option.some_bind, List.drop_left]
    rw [ih (fun x hx => h x (List.mem_cons_of_mem v hx))]
    rfl

theorem skipValues_encode {vs : List CqlValue} (h : ∀ v ∈ vs, v.WF) (r : List Nat)
    {n : Nat} (hn : n ≤ vs.length) :
    skipValues ((vs.map encodeValue).flatten ++ r) n =
      some ((vs.take n).map encodeValue).flatten.length := by
  induction vs generalizing r n with
  | nil =>
    have hn0 : n = 0 := by simpa using hn
    subst hn0
    simp [skipValues]
  | cons v tl ih =>
    match n with
    | 0 => simp [skipValues]
    | Nat.succ m =>
      simp only [List.map_cons, List.flatten_cons, List.append_assoc]
      rw [skipValues, skipValue_encodeValue (h v (List.mem_cons_self v tl))]
      simp only [Option.bind_eq_bind, Option.some_bind, List.drop_left]
      rw [ih (fun x hx => h x (List.mem_cons_of_mem v hx)) r
        (show m ≤ tl.length by simpa using hn)]
      simp [List.take_succ_cons]

theorem iterValues_encode {vs : List CqlValue} (h : ∀ v ∈ vs, v.WF)
    (hlen : vs.length ≤ 255) : iterValues (encode vs) = some vs := by
  have hmod : vs.length % 256 = vs.length := Nat.mod_eq_of_lt (by omega)
  rw [encode, iterValues, hmod]
  have := decodeSeq_encode h []
  rwa [List.append_nil] at this

theorem get_encode {vs : List CqlValue} (h : ∀ v ∈ vs, v.WF)
    (hlen : vs.length ≤ 255) (i : Nat) : get (encode vs) i = vs[i]? := by
  have hmod : vs.length % 256 = vs.length := Nat.mod_eq_of_lt (by omega)
  rw [encode, get, hmod]
  by_cases hi : vs.length ≤ i
  · rw [if_pos hi, List.getElem?_eq_none hi]
  · push_neg at hi
    rw [if_neg (by omega)]
    have hskip := skipValues_encode h [] (n := i) (le_of_lt hi)
    rw [List.append_nil] at hskip
    rw [hskip]
    simp only [Option.bind_eq_bind, Option.some_bind]
    -- split the flattened buffer at position i
    have hsplit : (vs.map encodeValue).flatten =
        ((vs.take i).map encodeValue).flatten ++ ((vs.drop i).map encodeValue).flatten := by
      rw [← List.flatten_append, ← List.map_append, List.take_append_drop]
    rw [hsplit, List.drop_left]
    have hdrop : vs.drop i = vs[i] :: vs.drop (i + 1) := List.drop_eq_getElem_cons hi
    rw [hdrop]
    simp only [List.map_cons, List.flatten_cons]
    rw [decodeValue_encodeValue (h vs[i] (List.getElem_mem hi)) _]
    simp [List.getElem?_eq_getElem hi]

/-! ## Claim theorems for the primary-key codec -/

/-- Claim C1: PK codec round-trip — for every sequence `v` of supported CQL
scalar values with `|v| ≤ 255`, decoding the compact encoding of `v` — via
`iter` (which reads every value back) or via `get` at each index — yields
exactly `v`. -/
theorem pk_codec_roundtrip (vs : List CqlValue) (hwf : ∀ v ∈ vs, v.WF)
    (hlen : vs.length ≤ 255) :
    iterValues (encode vs) = some vs ∧ ∀ i : Nat, get (encode vs) i = vs[i]? :=
  ⟨iterValues_encode hwf hlen, get_encode hwf hlen⟩

/-- Witness for C1 at a concrete multi-type key. -/
theorem pk_codec_roundtrip_witness :
    iterValues (encode [CqlValue.int 42, CqlValue.text [97, 98, 99],
        CqlValue.boolean true, CqlValue.bigInt (-5)]) =
      some [CqlValue.int 42, CqlValue.text [97, 98, 99],
        CqlValue.boolean true, CqlValue.bigInt (-5)] :=
  (pk_codec_roundtrip _ (by decide) (by decide)).1

/-- Claim C2: PK codec injectivity — for sequences `a`, `b` of supported values
with at most 255 values each, `encode a = encode b ↔ a = b`. Equality of two
`InvariantKey`s is byte equality of their buffers (the derived `PartialEq`
compares the `Arc<[u8]>` contents), which the model expresses by identifying
a key with its buffer, so this is exactly "keys are equal iff the value
sequences are equal". -/
theorem pk_codec_encode_injective (a b : List CqlValue)
    (ha : ∀ v ∈ a, v.WF) (hb : ∀ v ∈ b, v.WF)
    (hla : a.length ≤ 255) (hlb : b.length ≤ 255) :
    encode a = encode b ↔ a = b := by
  constructor
  · intro h
    have h1 := iterValues_encode ha hla
    have h2 := iterValues_encode hb hlb
    rw [h, h2] at h1
    exact (Option.some_injective _ h1).symm
  · intro h
    rw [h]

/-- Witness for C2: two distinct one-column keys have distinct buffers. -/
theorem pk_codec_encode_injective_witness :
    encode [CqlValue.int 1] ≠ encode [CqlValue.int 2] := fun h => by
  have := (pk_codec_encode_injective [CqlValue.int 1] [CqlValue.int 2]
    (by decide) (by decide) (by decide) (by decide)).mp h
  simp at this

/-- Size in bytes of the owning key handle: `InvariantKey` (and its newtype
`PrimaryKey`) is a single `Arc<[u8]>`, a fat pointer made of one data pointer
and one length word — two machine words. The source asserts
`size_of::<InvariantKey>() == 16` and `size_of::<PrimaryKey>() == 16` at
compile time for the 64-bit (8-byte word) platform. -/
def invariantKeySizeBytes (wordBytes : Nat) : Nat := 2 * wordBytes

/-- Claim C6: encoding 256 values is a hard error — `try_new` returns an error
and `new` panics (both modelled as `none`); encoding exactly 255 values
succeeds; in general `try_new` fails exactly when more than 255 values are
given; and the owning handle is two machine words — 16 bytes on a 64-bit
platform. -/
theorem pk_codec_bound :
    tryNew (List.replicate 256 (CqlValue.int 0)) = none ∧
    new (List.replicate 256 (CqlValue.int 0)) = none ∧
    (tryNew (List.replicate 255 (CqlValue.int 0))).isSome = true ∧
    (∀ vs : List CqlValue, tryNew vs = none ↔ 255 < vs.length) ∧
    invariantKeySizeBytes 8 = 16 := by
  have h256 : (List.replicate 256 (CqlValue.int 0)).length = 256 := List.length_replicate _ _
  have h255 : (List.replicate 255 (CqlValue.int 0)).length = 255 := List.length_replicate _ _
  refine ⟨?_, ?_, ?_, ?_, rfl⟩
  · rw [tryNew, h256, if_neg (by norm_num)]
  · rw [new, h256, if_neg (by norm_num)]
  · rw [tryNew, h255, if_pos (by norm_num), Option.isSome_some]
  · intro vs
    rw [tryNew]
    split
    next hle =>
      constructor
      · intro hc
        exact absurd hc (Option.some_ne_none _)
      · intro hgt
        omega
    next hle =>
      constructor
      · intro _
        omega
      · intro _
        rfl

/-- Claim C7 counterexample: the spec's size-reference table gives 12 bytes for
`encode([Int, Text("hello")])`, but the encoding is
`count(1) + Int(1+4) + Text(1+4+5) = 16` bytes ("hello" = bytes
`[104, 101, 108, 108, 111]`). -/
theorem pk_codec_size_table_counterexample :
    (encode [CqlValue.int 42, CqlValue.text [104, 101, 108, 108, 111]]).length = 16 ∧
    (16 : Nat) ≠ 12 := by
  constructor
  · rfl
  · decide

/-- Claim C7 (amended): heap buffer sizes, count byte included —
`[Int(42)]` is 6, `[BigInt(x)]` is 10, `[Uuid(x)]` is 18 (a uuid has 16
bytes), `[Text("abc")]` is 9 ("abc" = bytes `[97, 98, 99]`), and
`[Int, Text("hello")]` is 16 — not 12 as the spec's table states. -/
theorem pk_codec_size_table (x : Int) (u s : List Nat)
    (hu : u.length = 16) (hs : s.length = 5) :
    (encode [CqlValue.int 42]).length = 6 ∧
    (encode [CqlValue.bigInt x]).length = 10 ∧
    (encode [CqlValue.uuid u]).length = 18 ∧
    (encode [CqlValue.text [97, 98, 99]]).length = 9 ∧
    (encode [CqlValue.int x, CqlValue.text s]).length = 16 := by
  refine ⟨rfl, ?_, ?_, rfl, ?_⟩ <;>
    simp [encode, encodeValue, intLE_length, natLE_length, hu, hs]

/-- Witness for C7 at concrete values. -/
theorem pk_codec_size_table_witness :
    (encode [CqlValue.bigInt 7]).length = 10 ∧
    (encode [CqlValue.uuid (List.replicate 16 0)]).length = 18 ∧
    (encode [CqlValue.int 7, CqlValue.text [104, 101, 108, 108, 111]]).length = 16 := by
  have h := pk_codec_size_table 7 (List.replicate 16 0) [104, 101, 108, 108, 111]
    (by decide) (by decide)
  exact ⟨h.2.1, h.2.2.1, h.2.2.2.2⟩

/-! ## `hash_prefix` (`invariant_key.rs`)

A Rust `Hasher` is modelled by the sequence of write operations fed to it:
`write_u8` (from `u8::hash`), `write_length_prefix` and `write` (from the
`Hash` impl of a `[u8]` slice, which hashes its length then its bytes).
Two hashes differ structurally when they feed different operation sequences
to the hasher. -/

inductive HashOp where
  | u8 (b : Nat)
  | len (n : Nat)
  | bytes (data : List Nat)
  deriving DecidableEq

/-- Model of the `Hash` impl of a `[u8]` slice: its length, then its raw bytes. -/
def sliceHashOps (data : List Nat) : List HashOp :=
  [.len data.length, .bytes data]

/-- The derived `Hash` of `InvariantKey` hashes the whole `Arc<[u8]>` buffer
(count byte included) as a slice. -/
def fullHashOps (buf : List Nat) : List HashOp := sliceHashOps buf

/-- Model of `InvariantKey::hash_prefix`: assert `n ≤ count` (panic modelled `none`),
scan the offsets of the first `n` values, then hash `n as u8` followed by the
byte range `data[1..offset]` as a slice. -/
def hashPrefixOps (buf : List Nat) (n : Nat) : Option (List HashOp) :=
  match buf with
  | [] => none
  | count :: rest =>
    if n ≤ count then
      (skipValues rest n).map fun off => HashOp.u8 (n % 256) :: sliceHashOps (rest.take off)
    else none

/-- Claim C5: for every key `k` (an encoded well-formed sequence `vs`) and every
`n ≤ len(k)`: `hash_prefix(k, n)` hashes `n` as a `u8` followed by the raw
bytes of the first `n` encoded values (as a slice), and the hasher-input
sequence of `hash_prefix` differs from that of the full `Hash` of `k` even
when `n = len(k)` — the two hash domains are disjoint. -/
theorem hash_prefix_spec (vs : List CqlValue) (hwf : ∀ v ∈ vs, v.WF)
    (hlen : vs.length ≤ 255) (n : Nat) (hn : n ≤ vs.length) :
    hashPrefixOps (encode vs) n =
      some (HashOp.u8 n :: sliceHashOps ((vs.take n).map encodeValue).flatten) ∧
    hashPrefixOps (encode vs) vs.length ≠ some (fullHashOps (encode vs)) := by
  have main : ∀ m : Nat, m ≤ vs.length → hashPrefixOps (encode vs) m =
      some (HashOp.u8 m :: sliceHashOps ((vs.take m).map encodeValue).flatten) := by
    intro m hm
    have hmod : vs.length % 256 = vs.length := Nat.mod_eq_of_lt (by omega)
    rw [encode, hashPrefixOps, hmod, if_pos hm]
    have hskip := skipValues_encode hwf [] (n := m) hm
    rw [List.append_nil] at hskip
    rw [hskip]
    have hsplit : (vs.map encodeValue).flatten =
        ((vs.take m).map encodeValue).flatten ++ ((vs.drop m).map encodeValue).flatten := by
      rw [← List.flatten_append, ← List.map_append, List.take_append_drop]
    rw [Option.map_some']
    have hm255 : m % 256 = m := Nat.mod_eq_of_lt (by omega)
    rw [hm255, hsplit, List.take_left]
  refine ⟨main n hn, ?_⟩
  rw [main vs.length le_rfl]
  intro hcontra
  have := Option.some_injective _ hcontra
  rw [fullHashOps, sliceHashOps] at this
  exact List.noConfusion this fun h _ => HashOp.noConfusion h

/-- Witness for C5 at a concrete two-column key with `n = len(k)`. -/
theorem hash_prefix_spec_witness :
    hashPrefixOps (encode [CqlValue.int 7, CqlValue.boolean true]) 2 =
      some (HashOp.u8 2 ::
        sliceHashOps (([CqlValue.int 7, CqlValue.boolean true].map encodeValue).flatten)) ∧
    hashPrefixOps (encode [CqlValue.int 7, CqlValue.boolean true]) 2 ≠
      some (fullHashOps (encode [CqlValue.int 7, CqlValue.boolean true])) := by
  have h := hash_prefix_spec [CqlValue.int 7, CqlValue.boolean true]
    (by decide) (by decide) 2 (by decide)
  exact ⟨h.1, h.2⟩

/-! ## Node-state machine (`node_state.rs`)

The actor folds an event stream into a `Status` plus the pending set `idxs`
of indexes awaiting their full scan. `IndexMetadata` (defined in the crate's
`lib.rs`, not shipped under `src/`) is reconstructed from its uses in
`node_state.rs`'s test and the spec's §3 data model; only its (derived)
decidable equality matters to the state machine, which stores metadata in a
`HashSet`. -/

inductive SpaceType where
  | cosine
  | euclidean
  | dotProduct
  deriving DecidableEq

/-- Modelled from the spec: `IndexMetadata` describes one declared index
(keyspace, index, table, target column, dimensionality, ANN tuning
parameters, similarity space, schema version). Its definition lives in the
crate's `lib.rs`, which is not among the provided sources; fields follow the
spec's §3 and the construction in `node_state.rs`'s test. The `version`
UUID is modelled as a `Nat`. -/
structure IndexMetadata where
  keyspace_name : String
  index_name : String
  table_name : String
  target_column : String
  dimensions : Nat
  connectivity : Nat
  expansion_add : Nat
  expansion_search : Nat
  space_type : SpaceType
  version : Nat
  deriving DecidableEq

inductive Status where
  | initializing
  | connectingToDb
  | discoveringIndexes
  | indexingEmbeddings
  | serving
  deriving DecidableEq

/-- Position of a status in the total order
`Initializing < ConnectingToDb < DiscoveringIndexes < IndexingEmbeddings <
Serving`. -/
def statusRank : Status → Nat
  | .initializing => 0
  | .connectingToDb => 1
  | .discoveringIndexes => 2
  | .indexingEmbeddings => 3
  | .serving => 4

inductive Event where
  | connectingToDb
  | connectedToDb
  | discoveringIndexes
  | indexesDiscovered (indexes : Finset IndexMetadata)
  | fullScanFinished (metadata : IndexMetadata)

def Event.isConnectingToDb : Event → Bool
  | .connectingToDb => true
  | _ => false

def Event.isDiscoveringIndexes : Event → Bool
  | .discoveringIndexes => true
  | _ => false

/-- State of the node-state actor: current status and pending index set. -/
structure NodeStateData where
  status : Status
  idxs : Finset IndexMetadata
  deriving DecidableEq

/-- Initial actor state: `Status::Initializing` with an empty pending set. -/
def initialNodeState : NodeStateData := ⟨.initializing, ∅⟩

/-- Model of one `SendEvent` step of the actor loop in `node_state::new`. -/
def handleEvent (s : NodeStateData) : Event → NodeStateData
  | .connectingToDb => { s with status := .connectingToDb }
  | .connectedToDb => s
  | .discoveringIndexes => { s with status := .discoveringIndexes }
  | .indexesDiscovered indexes =>
      if s.status = .discoveringIndexes then
        { status := .indexingEmbeddings, idxs := indexes }
      else s
  | .fullScanFinished metadata =>
      let idxs := s.idxs.erase metadata
      { status := if idxs = ∅ then .serving else s.status, idxs := idxs }

/-- Fold a whole event sequence. -/
def runEvents (s : NodeStateData) (es : List Event) : NodeStateData :=
  es.foldl handleEvent s

/-- The statuses observed along a run: the start status followed by the
status after each event. -/
def statusTrace (s : NodeStateData) (es : List Event) : List Status :=
  (es.scanl handleEvent s).map fun st => st.status

/-- A metadata value like the one built in `node_state.rs`'s test. -/
def sampleMetadata : IndexMetadata :=
  ⟨"test_keyspace", "test_index", "test_table", "test_column", 3, 0, 0, 0, .cosine, 0⟩

/-- Claim C3 counterexample: in status `DiscoveringIndexes`, the event
`IndexesDiscovered(∅)` sets the status to `IndexingEmbeddings`, not
`Serving` — the actor assigns `IndexingEmbeddings` without checking whether
the discovered set is empty. -/
theorem indexes_discovered_empty_counterexample :
    (handleEvent ⟨Status.discoveringIndexes, ∅⟩ (Event.indexesDiscovered ∅)).status =
      Status.indexingEmbeddings ∧
    Status.indexingEmbeddings ≠ Status.serving := by
  constructor
  · rfl
  · decide

/-- Claim C3 (amended): receiving `IndexesDiscovered(∅)` in status
`DiscoveringIndexes` yields status `IndexingEmbeddings` with an empty
pending set (not `Serving`); one subsequent `FullScanFinished` event — for
any metadata — is then needed to reach `Serving`. -/
theorem indexes_discovered_empty_amended (idxs : Finset IndexMetadata)
    (m : IndexMetadata) :
    handleEvent ⟨Status.discoveringIndexes, idxs⟩ (Event.indexesDiscovered ∅) =
      (⟨Status.indexingEmbeddings, ∅⟩ : NodeStateData) ∧
    handleEvent ⟨Status.indexingEmbeddings, ∅⟩ (Event.fullScanFinished m) =
      (⟨Status.serving, ∅⟩ : NodeStateData) := by
  constructor
  · rfl
  · simp [handleEvent, Finset.erase_empty]

/-- Claim C10: `FullScanFinished(m)` is processed identically in every
status: it removes `m` from the pending set and sets the status to `Serving`
exactly when the resulting pending set is empty; in particular, with an
empty pending set it forces `Serving` from any state. -/
theorem full_scan_finished_any_state (st : NodeStateData) (m : IndexMetadata) :
    (handleEvent st (Event.fullScanFinished m)).idxs = st.idxs.erase m ∧
    (handleEvent st (Event.fullScanFinished m)).status =
      (if st.idxs.erase m = ∅ then Status.serving else st.status) ∧
    handleEvent ⟨st.status, ∅⟩ (Event.fullScanFinished m) =
      (⟨Status.serving, ∅⟩ : NodeStateData) := by
  refine ⟨rfl, rfl, ?_⟩
  simp [handleEvent, Finset.erase_empty]

/-- Claim C4 counterexample: the event sequence
`[DiscoveringIndexes, FullScanFinished(m), DiscoveringIndexes]` contains no
`ConnectingToDb` event, yet the observed status goes `Serving` →
`DiscoveringIndexes`, moving backwards in the status order. -/
theorem status_monotonicity_counterexample :
    Event.discoveringIndexes.isConnectingToDb = false ∧
    (Event.fullScanFinished sampleMetadata).isConnectingToDb = false ∧
    (runEvents initialNodeState
      [Event.discoveringIndexes, Event.fullScanFinished sampleMetadata]).status =
      Status.serving ∧
    (runEvents initialNodeState
      [Event.discoveringIndexes, Event.fullScanFinished sampleMetadata,
        Event.discoveringIndexes]).status = Status.discoveringIndexes ∧
    statusRank Status.discoveringIndexes < statusRank Status.serving := by
  refine ⟨rfl, rfl, ?_, ?_, by decide⟩
  · simp [runEvents, handleEvent, initialNodeState, Finset.erase_empty]
  · simp [runEvents, handleEvent, initialNodeState, Finset.erase_empty]

theorem handleEvent_rank_mono (s : NodeStateData) (e : Event)
    (h1 : e.isConnectingToDb = false) (h2 : e.isDiscoveringIndexes = false) :
    statusRank s.status ≤ statusRank (handleEvent s e).status := by
  cases e with
  | connectingToDb => cases h1
  | connectedToDb => exact le_refl _
  | discoveringIndexes => cases h2
  | indexesDiscovered indexes =>
    rw [handleEvent]
    split
    next heq => rw [heq]; simp [statusRank]
    next => exact le_refl _
  | fullScanFinished m =>
    rw [handleEvent]
    split
    next => cases s.status <;> simp [statusRank]
    next => exact le_refl _

theorem statusTrace_cons (s : NodeStateData) (e : Event) (es : List Event) :
    statusTrace s (e :: es) = s.status :: statusTrace (handleEvent s e) es := by
  simp [statusTrace, List.scanl]

theorem statusTrace_head (s : NodeStateData) (es : List Event) :
    (statusTrace s es).head? = some s.status := by
  cases es <;> simp [statusTrace, List.scanl]

/-- Claim C4 (amended): absent `ConnectingToDb` **and** `DiscoveringIndexes`
events, the observed status is non-decreasing along the run in the order
`Initializing < ConnectingToDb < DiscoveringIndexes < IndexingEmbeddings <
Serving`; those two (re-entry) events are the only ones that can move the
status backwards. -/
theorem status_monotonicity_amended (s : NodeStateData) (es : List Event)
    (h : ∀ e ∈ es, e.isConnectingToDb = false ∧ e.isDiscoveringIndexes = false) :
    (statusTrace s es).Chain' fun a b => statusRank a ≤ statusRank b := by
  induction es generalizing s with
  | nil => simp [statusTrace, List.scanl]
  | cons e es ih =>
    rw [statusTrace_cons, List.chain'_cons']
    obtain ⟨h1, h2⟩ := h e (List.mem_cons_self e es)
    constructor
    · intro b hb
      rw [statusTrace_head] at hb
      cases hb
      exact handleEvent_rank_mono s e h1 h2
    · exact ih _ fun x hx => h x (List.mem_cons_of_mem e hx)

/-- Witness for the amended C4 on a concrete run. -/
theorem status_monotonicity_amended_witness :
    (statusTrace initialNodeState
      [Event.connectedToDb, Event.fullScanFinished sampleMetadata]).Chain'
      (fun a b => statusRank a ≤ statusRank b) :=
  status_monotonicity_amended initialNodeState
    [Event.connectedToDb, Event.fullScanFinished sampleMetadata]
    (by intro e he; fin_cases he <;> exact ⟨rfl, rfl⟩)

/-! ## Monitor-indexes (`monitor_indexes.rs`)

One tick of the schema-polling loop, with the database interactions
(`latest_schema_version`, `get_indexes`, per-index `add_index` results)
passed in as parameters. A schema timestamp (`CqlTimeuuid`) is modelled as a
`Nat`; a failed query as `Except.error ()`. `HashSet`s are modelled as lists
(the iteration order fixes the order of emitted actions, which no claim
depends on). -/

/-- Model of `SchemaVersion::has_changed`, given the cached value and the
result of the `latest_schema_version` query. A query error is turned into
`None` by the `unwrap_or_else` before comparison. Returns the boolean result
together with the updated cache. -/
def hasChanged (cached : Option Nat) (queried : Except Unit (Option Nat)) :
    Bool × Option Nat :=
  let q : Option Nat := match queried with
    | .error _ => none
    | .ok v => v
  if cached = q then (false, cached) else (true, q)

/-- Externally visible actions a tick performs: node-state events and engine
calls. -/
inductive TickAction where
  | sendDiscoveringIndexes
  | sendIndexesDiscovered (indexes : List IndexMetadata)
  | delIndex (m : IndexMetadata)
  | addIndex (m : IndexMetadata)
  deriving DecidableEq

/-- Result of one tick: the new cached schema version, the new local index
set, and the actions performed. -/
structure TickResult where
  schemaVersion : Option Nat
  indexes : List IndexMetadata
  actions : List TickAction
  deriving DecidableEq

/-- Model of one `interval.tick` arm of the loop in `monitor_indexes::new`:

1. `has_changed` against the schema-version query; if unchanged, `continue`.
2. Send `DiscoveringIndexes`.
3. `get_indexes`; on error reset the cached version and `continue`.
4. Send `IndexesDiscovered(new)`.
5. `del_indexes` for local indexes no longer present (`extract_if`).
6. `add_indexes` for new indexes not held locally; keep those that
   succeeded; if any failed, reset the cached version. -/
def tick (schemaVersion : Option Nat) (indexes : List IndexMetadata)
    (qSchema : Except Unit (Option Nat))
    (qIndexes : Except Unit (List IndexMetadata))
    (addOk : IndexMetadata → Bool) : TickResult :=
  let (changed, sv) := hasChanged schemaVersion qSchema
  if !changed then ⟨sv, indexes, []⟩
  else
    match qIndexes with
    | .error _ => ⟨none, indexes, [.sendDiscoveringIndexes]⟩
    | .ok newIndexes =>
      let removed := indexes.filter fun i => !newIndexes.contains i
      let kept := indexes.filter fun i => newIndexes.contains i
      let toAdd := newIndexes.filter fun i => !kept.contains i
      let added := toAdd.filter addOk
      let hasFailures := toAdd.any fun i => !addOk i
      ⟨if hasFailures then none else sv,
        kept ++ added,
        .sendDiscoveringIndexes :: .sendIndexesDiscovered newIndexes ::
          (removed.map .delIndex ++ toAdd.map .addIndex)⟩

/-- Claim C8: in each monitor-indexes tick, (a) if the schema-version query
fails, the cached schema timestamp ends up cleared (`None`), (b) with a
cleared cache, the next successful schema-version query always reports a
change (the retry is unconditional), and (c) if the queried schema timestamp
equals the cached one, the tick does nothing further: no state change and no
actions (no node-state events, no engine calls). -/
theorem monitor_tick_spec (sv : Option Nat) (indexes : List IndexMetadata)
    (qIdx : Except Unit (List IndexMetadata)) (addOk : IndexMetadata → Bool) :
    (tick sv indexes (Except.error ()) qIdx addOk).schemaVersion = none ∧
    (∀ v : Nat, (hasChanged none (Except.ok (some v))).1 = true) ∧
    tick sv indexes (Except.ok sv) qIdx addOk = ⟨sv, indexes, []⟩ := by
  refine ⟨?_, ?_, ?_⟩
  · by_cases h : sv = (none : Option Nat)
    · subst h
      simp [tick, hasChanged]
    · simp only [tick, hasChanged, if_neg h]
      cases qIdx with
      | error e => simp
      | ok l =>
        simp only [Bool.not_true, Bool.false_eq_true, if_false]
        split <;> rfl
  · intro v
    simp [hasChanged]
  · simp [tick, hasChanged]

/-! ## ANN query limit (`src/lib.rs`, `src/httproutes.rs`)

`PostIndexAnnRequest` deserializes its `limit` field into
`Limit(NonZeroUsize)`; `post_index_ann` then forwards the limit to the index
actor without further validation. -/

/-- Deserialization of the `limit` field: a JSON number `k` parses as a
`Limit(NonZeroUsize)` iff `k` is nonzero and fits in a `usize`. -/
def limitParse (k : Nat) : Option Nat :=
  if k = 0 ∨ 18446744073709551616 ≤ k then none else some k

/-- Acceptance of an ANN request with limit `k`: the handler performs no
range check beyond deserialization. -/
def annRequestLimitAccepted (k : Nat) : Bool :=
  (limitParse k).isSome

/-- Claim C9 counterexample: a request with limit `k = 1001 > 1000` is
accepted by the service (its body deserializes and `post_index_ann` applies
no upper bound), contradicting "for every request with k > 1000 the request
is rejected". -/
theorem ann_limit_counterexample :
    annRequestLimitAccepted 1001 = true ∧ 1000 < 1001 := by
  constructor
  · rfl
  · decide

/-- Claim C9 (amended): a request with `k = 0` is rejected as invalid input
(the `NonZeroUsize` fails to deserialize, producing a 400), and every limit
`1 ≤ k` that fits in a `usize` is accepted — the service itself imposes no
upper bound of 1000 (the `1..=1000` range of the spec is enforced upstream
by the database, not by this repository's HTTP surface). -/
theorem ann_limit_amended :
    limitParse 0 = none ∧
    ∀ k : Nat, annRequestLimitAccepted k = true ↔
      1 ≤ k ∧ k < 18446744073709551616 := by
  constructor
  · rfl
  · intro k
    rw [annRequestLimitAccepted, limitParse]
    split
    next h =>
      simp only [Option.isSome_none, Bool.false_eq_true, false_iff]
      rcases h with h | h <;> omega
    next h =>
      push_neg at h
      simp only [Option.isSome_some, true_iff]
      omega

end VectorStore
